import Mathlib

/-!
Verification development for the chess AI core of the terminal-games
repository (`src/terminal_games/chess/chess_ai.py`).

The chess rules engine (the `python-chess` library) is an external
dependency of the repository, treated by the design as a black-box
"move-rules oracle".  Following that interface, the search and move
selection code is embedded generically over a `GameRules` record whose
fields are exactly the oracle queries the core uses (legal moves, apply
a move, game-over test, side to move) together with the leaf evaluator.

Python's `float('-inf')` / `float('inf')` sentinels and the integer
evaluation scores live together in the extended integers
`Ext := WithBot (WithTop ℤ)`.

The Python `minimax` recursion has no a-priori termination measure when
called with a negative depth, so the embedding carries an explicit fuel
parameter: `none` models a call that has not terminated within `fuel`
nested calls; for every call the Python code completes, some finite fuel
returns `some` of its value.
-/

namespace ChessAI

/-- Extended evaluation scores: integers together with the two infinite
sentinels `float('-inf')` (`⊥`) and `float('inf')` (`⊤`). -/
abbrev Ext : Type := WithBot (WithTop ℤ)

/-- Embed an integer evaluation score into `Ext`. -/
def toExt (n : ℤ) : Ext := ((n : WithTop ℤ) : WithBot (WithTop ℤ))

/-- Maximum of a list of scores, starting from `-inf`. -/
def listMax (xs : List Ext) : Ext := xs.foldl max ⊥

/-- Minimum of a list of scores, starting from `+inf`. -/
def listMin (xs : List Ext) : Ext := xs.foldl min ⊤

/-- The move-rules oracle interface of the spec (§6) together with the
leaf evaluator: legal-move enumeration, move application, terminal test,
side to move, and the position evaluation the search calls at leaves.
The chess instantiation plugs `evaluate_board` into `eval`. -/
structure GameRules (Pos Move : Type) where
  legalMoves : Pos → List Move
  play : Pos → Move → Pos
  isGameOver : Pos → Bool
  turnWhite : Pos → Bool
  eval : Pos → ℤ

variable {Pos Move : Type}

/-- The maximizing branch's move loop of `minimax`, over the remaining
moves: `best` is `max_eval`, `child m α β` stands for the recursive
call on the position after `m`, and the loop breaks (returning
`max_eval`) as soon as `beta <= alpha` after the alpha update. -/
def maxLoop (child : Move → Ext → Ext → Option Ext) :
    List Move → Ext → Ext → Ext → Option Ext
  | [], best, _, _ => some best
  | m :: rest, best, α, β =>
    match child m α β with
    | none => none
    | some v =>
      if β ≤ max α v then some (max best v)
      else maxLoop child rest (max best v) (max α v) β

/-- The minimizing branch's move loop of `minimax`: `best` is
`min_eval`, and the loop breaks (returning `min_eval`) as soon as
`beta <= alpha` after the beta update. -/
def minLoop (child : Move → Ext → Ext → Option Ext) :
    List Move → Ext → Ext → Ext → Option Ext
  | [], best, _, _ => some best
  | m :: rest, best, α, β =>
    match child m α β with
    | none => none
    | some v =>
      if min β v ≤ α then some (min best v)
      else minLoop child rest (min best v) α (min β v)

/-- `minimax` from `chess_ai.py`: alpha-beta pruned minimax.  `fuel`
bounds the number of nested calls (`none` = did not finish); `d` is the
Python `depth` argument (an integer, possibly negative). -/
def minimax (G : GameRules Pos Move) : ℕ → Pos → ℤ → Ext → Ext → Bool → Option Ext
  | 0, _, _, _, _, _ => none
  | f + 1, p, d, α, β, maxi =>
    if d = 0 ∨ G.isGameOver p = true then some (toExt (G.eval p))
    else if maxi then
      maxLoop (fun m a b => minimax G f (G.play p m) (d - 1) a b false)
        (G.legalMoves p) ⊥ α β
    else
      minLoop (fun m a b => minimax G f (G.play p m) (d - 1) a b true)
        (G.legalMoves p) ⊤ α β

/-- Unpruned full minimax over the same game tree to the same depth,
written from the spec's description of plain minimax: at depth 0 or a
terminal position return the evaluation, otherwise take the maximum
(resp. minimum) of the child values.  This is the comparison point for
the alpha-beta equivalence claim. -/
def fullMinimax (G : GameRules Pos Move) : Pos → ℕ → Bool → Ext
  | p, 0, _ => toExt (G.eval p)
  | p, dn + 1, maxi =>
    if G.isGameOver p = true then toExt (G.eval p)
    else if maxi then
      listMax ((G.legalMoves p).map fun m => fullMinimax G (G.play p m) dn false)
    else
      listMin ((G.legalMoves p).map fun m => fullMinimax G (G.play p m) dn true)

/-- The root scoring loop of `get_best_move`: tracks `best_value` and
the list `best_moves` of all moves tying for the best value, with the
Python update discipline (strict improvement resets the list, equality
appends). -/
def rootLoop (G : GameRules Pos Move) (fuel : ℕ) (p : Pos) (depth : ℤ)
    (isWhite : Bool) : List Move → Ext → List Move → Option (Ext × List Move)
  | [], bestValue, bestMoves => some (bestValue, bestMoves)
  | m :: rest, bestValue, bestMoves =>
    match minimax G fuel (G.play p m) (depth - 1) ⊥ ⊤ (!isWhite) with
    | none => none
    | some v =>
      if isWhite then
        if bestValue < v then rootLoop G fuel p depth isWhite rest v [m]
        else if v = bestValue then
          rootLoop G fuel p depth isWhite rest bestValue (bestMoves ++ [m])
        else rootLoop G fuel p depth isWhite rest bestValue bestMoves
      else
        if v < bestValue then rootLoop G fuel p depth isWhite rest v [m]
        else if v = bestValue then
          rootLoop G fuel p depth isWhite rest bestValue (bestMoves ++ [m])
        else rootLoop G fuel p depth isWhite rest bestValue bestMoves

/-- `get_best_move` from `chess_ai.py`, returning the full candidate
list `best_moves` instead of one random element: the Python function
returns `None` exactly when this list is empty (game over, or no legal
moves), and otherwise `random.choice` of the list.  The outer `none`
models a search that does not finish within `fuel`. -/
def get_best_move (G : GameRules Pos Move) (fuel : ℕ) (p : Pos) (depth : ℤ) :
    Option (List Move) :=
  if G.isGameOver p = true then some []
  else
    match rootLoop G fuel p depth (G.turnWhite p) (G.legalMoves p)
        (if G.turnWhite p then ⊥ else ⊤) [] with
    | none => none
    | some (_, bestMoves) => some bestMoves

/-!
State-passing embedding.  The Python code mutates one shared
`chess.Board` through `board.push(move)` / `board.pop()` along the
recursion.  The mutable board is modelled as a base position plus the
stack of currently applied moves; `push` appends a move, `pop` removes
the last one, and the position the oracle sees is the base with the
stack applied.  The state-passing search returns the final state of the
board alongside the value, making the restoration claims expressible.
-/

/-- The mutable board of the Python code: a base position plus the
stack of moves currently applied to it (`chess.Board`'s move stack). -/
structure SearchState (Pos Move : Type) where
  base : Pos
  stack : List Move
deriving DecidableEq

/-- The position currently represented by the mutable board. -/
def posOf (G : GameRules Pos Move) (s : SearchState Pos Move) : Pos :=
  s.stack.foldl G.play s.base

/-- `board.push(move)`. -/
def push (s : SearchState Pos Move) (m : Move) : SearchState Pos Move :=
  ⟨s.base, s.stack ++ [m]⟩

/-- `board.pop()`: undo the most recent push. -/
def pop (s : SearchState Pos Move) : SearchState Pos Move :=
  ⟨s.base, s.stack.dropLast⟩

/-- Maximizing move loop with explicit push/recurse/pop state flow:
`child t α β` stands for the recursive call on board state `t`, and
the loop pushes `m`, recurses, and pops on every path. -/
def maxLoop_st (child : SearchState Pos Move → Ext → Ext →
    Option (Ext × SearchState Pos Move)) :
    SearchState Pos Move → List Move → Ext → Ext → Ext →
    Option (Ext × SearchState Pos Move)
  | s, [], best, _, _ => some (best, s)
  | s, m :: rest, best, α, β =>
    match child (push s m) α β with
    | none => none
    | some (v, s2) =>
      if β ≤ max α v then some (max best v, pop s2)
      else maxLoop_st child (pop s2) rest (max best v) (max α v) β

/-- Minimizing move loop with explicit push/recurse/pop state flow. -/
def minLoop_st (child : SearchState Pos Move → Ext → Ext →
    Option (Ext × SearchState Pos Move)) :
    SearchState Pos Move → List Move → Ext → Ext → Ext →
    Option (Ext × SearchState Pos Move)
  | s, [], best, _, _ => some (best, s)
  | s, m :: rest, best, α, β =>
    match child (push s m) α β with
    | none => none
    | some (v, s2) =>
      if min β v ≤ α then some (min best v, pop s2)
      else minLoop_st child (pop s2) rest (min best v) α (min β v)

/-- `minimax` with the mutable board made explicit: every `board.push`
and `board.pop` of the source appears as a state transition, and the
final state of the board is returned with the value. -/
def minimax_st (G : GameRules Pos Move) : ℕ → SearchState Pos Move → ℤ →
    Ext → Ext → Bool → Option (Ext × SearchState Pos Move)
  | 0, _, _, _, _, _ => none
  | f + 1, s, d, α, β, maxi =>
    if d = 0 ∨ G.isGameOver (posOf G s) = true then
      some (toExt (G.eval (posOf G s)), s)
    else if maxi then
      maxLoop_st (fun t a b => minimax_st G f t (d - 1) a b false) s
        (G.legalMoves (posOf G s)) ⊥ α β
    else
      minLoop_st (fun t a b => minimax_st G f t (d - 1) a b true) s
        (G.legalMoves (posOf G s)) ⊤ α β

/-- Root scoring loop of `get_best_move` with explicit board state. -/
def rootLoop_st (G : GameRules Pos Move) (fuel : ℕ) (depth : ℤ)
    (isWhite : Bool) : SearchState Pos Move → List Move → Ext → List Move →
    Option (Ext × List Move × SearchState Pos Move)
  | s, [], bestValue, bestMoves => some (bestValue, bestMoves, s)
  | s, m :: rest, bestValue, bestMoves =>
    match minimax_st G fuel (push s m) (depth - 1) ⊥ ⊤ (!isWhite) with
    | none => none
    | some (v, s2) =>
      if isWhite then
        if bestValue < v then rootLoop_st G fuel depth isWhite (pop s2) rest v [m]
        else if v = bestValue then
          rootLoop_st G fuel depth isWhite (pop s2) rest bestValue (bestMoves ++ [m])
        else rootLoop_st G fuel depth isWhite (pop s2) rest bestValue bestMoves
      else
        if v < bestValue then rootLoop_st G fuel depth isWhite (pop s2) rest v [m]
        else if v = bestValue then
          rootLoop_st G fuel depth isWhite (pop s2) rest bestValue (bestMoves ++ [m])
        else rootLoop_st G fuel depth isWhite (pop s2) rest bestValue bestMoves

/-- `get_best_move` with explicit board state: returns the candidate
list together with the final state of the board seen by the caller. -/
def get_best_move_st (G : GameRules Pos Move) (fuel : ℕ)
    (s : SearchState Pos Move) (depth : ℤ) :
    Option (List Move × SearchState Pos Move) :=
  if G.isGameOver (posOf G s) = true then some ([], s)
  else
    match rootLoop_st G fuel depth (G.turnWhite (posOf G s)) s
        (G.legalMoves (posOf G s))
        (if G.turnWhite (posOf G s) then ⊥ else ⊤) [] with
    | none => none
    | some (_, bestMoves, s2) => some (bestMoves, s2)

/-!
Concrete chess data model for the evaluator and the captured-piece
accounting.  Squares are the `python-chess` integers 0..63 (a1 = 0,
h8 = 63, rank = square / 8, file = square % 8).  Colors follow
`python-chess`: `true` is White, `false` is Black.

A `Board` records the piece placement and the side to move, together
with the answers of the external rules oracle's queries that
`evaluate_board` consults (checkmate / stalemate / insufficient
material, and the legal-move list of the side to move).  The oracle
itself (the `python-chess` library) is not part of this repository;
per the spec (§2, §6) it is a black-box collaborator, so its answers
are fields of the position rather than computed functions.
-/

/-- Chess piece types. -/
inductive PieceType where
  | pawn | knight | bishop | rook | queen | king
deriving DecidableEq, Fintype

/-- A piece: type and color (`true` = White as in `python-chess`). -/
structure Piece where
  piece_type : PieceType
  color : Bool
deriving DecidableEq

/-- A move as the spec's data model describes it: source square,
destination square, optional promotion piece type. -/
structure ChessMove where
  fromSq : ℕ
  toSq : ℕ
  promotion : Option PieceType
deriving DecidableEq

/-- A chess position as seen through the oracle interface used by the
evaluator: piece placement, side to move, and the oracle's terminal
queries and legal-move list. -/
structure Board where
  piece_at : ℕ → Option Piece
  turn : Bool
  is_checkmate : Bool
  is_stalemate : Bool
  is_insufficient_material : Bool
  legal_moves : List ChessMove

/-- `PIECE_VALUES` from `chess_ai.py`. -/
def PIECE_VALUES : PieceType → ℤ
  | .pawn => 100
  | .knight => 320
  | .bishop => 330
  | .rook => 500
  | .queen => 900
  | .king => 20000

/-- `PAWN_TABLE` from `chess_ai.py`. -/
def PAWN_TABLE : List ℤ :=
  [0,  0,  0,  0,  0,  0,  0,  0,
   50, 50, 50, 50, 50, 50, 50, 50,
   10, 10, 20, 30, 30, 20, 10, 10,
   5,  5, 10, 25, 25, 10,  5,  5,
   0,  0,  0, 20, 20,  0,  0,  0,
   5, -5,-10,  0,  0,-10, -5,  5,
   5, 10, 10,-20,-20, 10, 10,  5,
   0,  0,  0,  0,  0,  0,  0,  0]

/-- `KNIGHT_TABLE` from `chess_ai.py`. -/
def KNIGHT_TABLE : List ℤ :=
  [-50,-40,-30,-30,-30,-30,-40,-50,
   -40,-20,  0,  0,  0,  0,-20,-40,
   -30,  0, 10, 15, 15, 10,  0,-30,
   -30,  5, 15, 20, 20, 15,  5,-30,
   -30,  0, 15, 20, 20, 15,  0,-30,
   -30,  5, 10, 15, 15, 10,  5,-30,
   -40,-20,  0,  5,  5,  0,-20,-40,
   -50,-40,-30,-30,-30,-30,-40,-50]

/-- `BISHOP_TABLE` from `chess_ai.py`. -/
def BISHOP_TABLE : List ℤ :=
  [-20,-10,-10,-10,-10,-10,-10,-20,
   -10,  0,  0,  0,  0,  0,  0,-10,
   -10,  0,  5, 10, 10,  5,  0,-10,
   -10,  5,  5, 10, 10,  5,  5,-10,
   -10,  0, 10, 10, 10, 10,  0,-10,
   -10, 10, 10, 10, 10, 10, 10,-10,
   -10,  5,  0,  0,  0,  0,  5,-10,
   -20,-10,-10,-10,-10,-10,-10,-20]

/-- `ROOK_TABLE` from `chess_ai.py`. -/
def ROOK_TABLE : List ℤ :=
  [0,  0,  0,  0,  0,  0,  0,  0,
   5, 10, 10, 10, 10, 10, 10,  5,
  -5,  0,  0,  0,  0,  0,  0, -5,
  -5,  0,  0,  0,  0,  0,  0, -5,
  -5,  0,  0,  0,  0,  0,  0, -5,
  -5,  0,  0,  0,  0,  0,  0, -5,
  -5,  0,  0,  0,  0,  0,  0, -5,
   0,  0,  0,  5,  5,  0,  0,  0]

/-- `QUEEN_TABLE` from `chess_ai.py`. -/
def QUEEN_TABLE : List ℤ :=
  [-20,-10,-10, -5, -5,-10,-10,-20,
   -10,  0,  0,  0,  0,  0,  0,-10,
   -10,  0,  5,  5,  5,  5,  0,-10,
    -5,  0,  5,  5,  5,  5,  0, -5,
     0,  0,  5,  5,  5,  5,  0, -5,
   -10,  5,  5,  5,  5,  5,  0,-10,
   -10,  0,  5,  0,  0,  0,  0,-10,
   -20,-10,-10, -5, -5,-10,-10,-20]

/-- `KING_MIDDLEGAME_TABLE` from `chess_ai.py`. -/
def KING_MIDDLEGAME_TABLE : List ℤ :=
  [-30,-40,-40,-50,-50,-40,-40,-30,
   -30,-40,-40,-50,-50,-40,-40,-30,
   -30,-40,-40,-50,-50,-40,-40,-30,
   -30,-40,-40,-50,-50,-40,-40,-30,
   -20,-30,-30,-40,-40,-30,-30,-20,
   -10,-20,-20,-20,-20,-20,-20,-10,
    20, 20,  0,  0,  0,  0, 20, 20,
    20, 30, 10,  0,  0, 10, 30, 20]

/-- `PIECE_TABLES` from `chess_ai.py`.  The Python dict has an entry
for all six piece types, so the `table is None` early return of
`get_piece_square_value` is unreachable. -/
def PIECE_TABLES : PieceType → List ℤ
  | .pawn => PAWN_TABLE
  | .knight => KNIGHT_TABLE
  | .bishop => BISHOP_TABLE
  | .rook => ROOK_TABLE
  | .queen => QUEEN_TABLE
  | .king => KING_MIDDLEGAME_TABLE

/-- `chess.square_rank`. -/
def square_rank (sq : ℕ) : ℕ := sq / 8

/-- `chess.square_file`. -/
def square_file (sq : ℕ) : ℕ := sq % 8

/-- `get_piece_square_value` from `chess_ai.py`: for a White piece the
table index is vertically mirrored, for a Black piece the square is
used directly.  Out-of-range indexing (never reached for squares
0..63) defaults to 0. -/
def get_piece_square_value (pt : PieceType) (sq : ℕ) (is_white : Bool) : ℤ :=
  let table := PIECE_TABLES pt
  let index := if is_white then (7 - square_rank sq) * 8 + square_file sq else sq
  table.getD index 0

/-- `evaluate_board` from `chess_ai.py`. -/
def evaluate_board (b : Board) : ℤ :=
  if b.is_checkmate then (if b.turn then -20000 else 20000)
  else if b.is_stalemate || b.is_insufficient_material then 0
  else
    let score := (List.range 64).foldl (fun acc sq =>
      match b.piece_at sq with
      | none => acc
      | some piece =>
        let value := PIECE_VALUES piece.piece_type
        let positional := get_piece_square_value piece.piece_type sq piece.color
        let total := value + positional
        if piece.color then acc + total else acc - total) 0
    let mobility : ℤ := b.legal_moves.length
    if b.turn then score + mobility * 2 else score - mobility * 2

/-- The evaluator as the spec's words describe it, for comparison with
`evaluate_board`: a mate score of -20000 (White to move) or +20000
(Black to move) at checkmate; 0 at stalemate or insufficient material;
otherwise the sum over occupied squares of material plus piece-square
value, signed by color, with the table indexed at the rank-mirrored
square for White and directly for Black, plus twice the number of
legal moves of the side to move, signed by the side to move. -/
def evaluate_board_spec (b : Board) : ℤ :=
  if b.is_checkmate then (if b.turn then -20000 else 20000)
  else if b.is_stalemate || b.is_insufficient_material then 0
  else
    ((List.range 64).map (fun sq =>
      match b.piece_at sq with
      | none => 0
      | some piece =>
        let contribution := PIECE_VALUES piece.piece_type +
          (PIECE_TABLES piece.piece_type).getD
            (if piece.color then (7 - sq / 8) * 8 + sq % 8 else sq) 0
        if piece.color then contribution else -contribution)).sum
    + (if b.turn then 2 * (b.legal_moves.length : ℤ)
       else -(2 * (b.legal_moves.length : ℤ)))

/-- The starting piece counts of `get_captured_pieces`. -/
def starting_counts : PieceType → ℕ
  | .pawn => 8
  | .knight => 2
  | .bishop => 2
  | .rook => 2
  | .queen => 1
  | .king => 1

/-- The iteration order of the `starting_counts` dict in
`get_captured_pieces` (Python dict insertion order). -/
def PIECE_TYPE_ORDER : List PieceType :=
  [.pawn, .knight, .bishop, .rook, .queen, .king]

/-- The current on-board count of the `(color, piece_type)` pair, as
computed by the square scan of `get_captured_pieces`. -/
def current_count (b : Board) (color : Bool) (pt : PieceType) : ℕ :=
  (List.range 64).countP (fun sq =>
    match b.piece_at sq with
    | none => false
    | some piece => piece.color == color && piece.piece_type == pt)

/-- `get_captured_pieces` from `chess_ai.py` for one color: kings are
skipped, and each other type contributes `starting - current` copies.
Natural-number subtraction models Python's list repetition
`[piece_type] * missing`, which yields the empty list for a negative
`missing`. -/
def get_captured_pieces (b : Board) (color : Bool) : List PieceType :=
  PIECE_TYPE_ORDER.foldl (fun acc pt =>
    if pt = .king then acc
    else acc ++ List.replicate (starting_counts pt - current_count b color pt) pt) []

/-- Back-rank piece layout of the standard starting position. -/
def back_rank_type (file : ℕ) : PieceType :=
  match file with
  | 0 => .rook
  | 1 => .knight
  | 2 => .bishop
  | 3 => .queen
  | 4 => .king
  | 5 => .bishop
  | 6 => .knight
  | _ => .rook

/-- Piece placement of the standard starting position. -/
def start_piece_at (sq : ℕ) : Option Piece :=
  if sq / 8 = 0 then some ⟨back_rank_type (sq % 8), true⟩
  else if sq / 8 = 1 then some ⟨.pawn, true⟩
  else if sq / 8 = 6 then some ⟨.pawn, false⟩
  else if sq / 8 = 7 then some ⟨back_rank_type (sq % 8), false⟩
  else none

/-- Modelled from the spec: the legal moves of the standard starting
position.  Legal-move generation lives in the external `python-chess`
oracle, which is not part of this repository; the spec (§8) states
both sides have 20 legal moves at the start, and these are the 20
moves of the side to move (16 pawn pushes and 4 knight moves). -/
def start_legal_moves : List ChessMove :=
  ((List.range 8).map fun f => ⟨8 + f, 16 + f, none⟩) ++
  ((List.range 8).map fun f => ⟨8 + f, 24 + f, none⟩) ++
  [⟨1, 16, none⟩, ⟨1, 18, none⟩, ⟨6, 21, none⟩, ⟨6, 23, none⟩]

/-- The standard chess starting position, White to move. -/
def startBoard : Board :=
  { piece_at := start_piece_at
    turn := true
    is_checkmate := false
    is_stalemate := false
    is_insufficient_material := false
    legal_moves := start_legal_moves }

/-- The starting position with White's e2 pawn replaced by an extra
White queen: a position of the kind promotion produces, where a piece
type's on-board count (two White queens) exceeds its starting count. -/
def promoBoard : Board :=
  { startBoard with
    piece_at := fun sq =>
      if sq = 12 then some ⟨.queen, true⟩ else start_piece_at sq }

/-- The starting position with White's e2 pawn (square 12) and Black's
b8 knight (square 57) removed, simulating two captures. -/
def examplePos : Board :=
  { startBoard with
    piece_at := fun sq =>
      if sq = 12 ∨ sq = 57 then none else start_piece_at sq }

/-!
Small concrete games over the abstract oracle interface, used to
evaluate the search functions at explicit inputs.
-/

/-- A depth-2 binary game tree: position `p < 3` has two moves `0, 1`
leading to `2 * p + 1 + m`; positions from 3 on are terminal with
leaf values 3, 5, 2, 9. -/
def Gc : GameRules ℕ ℕ :=
  { legalMoves := fun p => if p < 3 then [0, 1] else []
    play := fun p m => 2 * p + 1 + m
    isGameOver := fun p => decide (3 ≤ p)
    turnWhite := fun _ => true
    eval := fun p =>
      if p = 3 then 3 else if p = 4 then 5 else if p = 5 then 2
      else if p = 6 then 9 else 0 }

/-- A three-position line 0 → 1 → 2 with 2 terminal; the leaf
evaluations 5 (at 1) and 7 (at 2) differ, separating depth-0 leaf
scoring from search-to-the-end scoring. -/
def T : GameRules ℕ Unit :=
  { legalMoves := fun p => if p ≤ 1 then [()] else []
    play := fun p _ => p + 1
    isGameOver := fun p => decide (p = 2)
    turnWhite := fun _ => true
    eval := fun p => if p = 1 then 5 else if p = 2 then 7 else 0 }

/-- A game with an infinite line and no terminal positions: every
position has one self-loop move and is never game over. -/
def LoopG : GameRules ℕ Unit :=
  { legalMoves := fun _ => [()]
    play := fun p _ => p
    isGameOver := fun _ => false
    turnWhite := fun _ => true
    eval := fun _ => 0 }

/-!
Order lemmas for `listMax` / `listMin`.
-/

theorem foldl_max_eq (xs : List Ext) : ∀ a : Ext, xs.foldl max a = max a (listMax xs) := by
  induction xs with
  | nil =>
    intro a
    simp only [List.foldl_nil, listMax]
    exact (max_eq_left bot_le).symm
  | cons x xs ih =>
    intro a
    show List.foldl max (max a x) xs = max a (listMax (x :: xs))
    rw [ih]
    have h2 : listMax (x :: xs) = max x (listMax xs) := by
      show List.foldl max (max ⊥ x) xs = _
      rw [ih, max_comm ⊥ x, max_eq_left bot_le]
    rw [h2, max_assoc]

theorem listMax_cons (x : Ext) (xs : List Ext) :
    listMax (x :: xs) = max x (listMax xs) := by
  show List.foldl max (max ⊥ x) xs = _
  rw [foldl_max_eq, max_comm ⊥ x, max_eq_left bot_le]

theorem foldl_min_eq (xs : List Ext) : ∀ a : Ext, xs.foldl min a = min a (listMin xs) := by
  induction xs with
  | nil =>
    intro a
    simp only [List.foldl_nil, listMin]
    exact (min_eq_left le_top).symm
  | cons x xs ih =>
    intro a
    show List.foldl min (min a x) xs = min a (listMin (x :: xs))
    rw [ih]
    have h2 : listMin (x :: xs) = min x (listMin xs) := by
      show List.foldl min (min ⊤ x) xs = _
      rw [ih, min_comm ⊤ x, min_eq_left le_top]
    rw [h2, min_assoc]

theorem listMin_cons (x : Ext) (xs : List Ext) :
    listMin (x :: xs) = min x (listMin xs) := by
  show List.foldl min (min ⊤ x) xs = _
  rw [foldl_min_eq, min_comm ⊤ x, min_eq_left le_top]

theorem listMax_mem : ∀ xs : List Ext, xs ≠ [] → listMax xs ∈ xs := by
  intro xs
  induction xs with
  | nil => intro h; exact absurd rfl h
  | cons x xs ih =>
    intro _
    rw [listMax_cons]
    by_cases hx : xs = []
    · subst hx
      rw [show listMax [] = ⊥ from rfl, max_eq_left bot_le]
      exact List.mem_cons_self x []
    · rcases max_choice x (listMax xs) with h | h
      · rw [h]; exact List.mem_cons_self x xs
      · rw [h]; exact List.mem_cons_of_mem x (ih hx)

theorem listMin_mem : ∀ xs : List Ext, xs ≠ [] → listMin xs ∈ xs := by
  intro xs
  induction xs with
  | nil => intro h; exact absurd rfl h
  | cons x xs ih =>
    intro _
    rw [listMin_cons]
    by_cases hx : xs = []
    · subst hx
      rw [show listMin [] = ⊤ from rfl, min_eq_left le_top]
      exact List.mem_cons_self x []
    · rcases min_choice x (listMin xs) with h | h
      · rw [h]; exact List.mem_cons_self x xs
      · rw [h]; exact List.mem_cons_of_mem x (ih hx)

/-!
Fail-soft alpha-beta correctness, in the style of the Knuth-Moore
conditions: a call with window `(α, β)` returning `r` pins the true
value `v` down as follows: if `r ≤ α` then `v ≤ r`; if `α < r < β`
then `v = r`; if `β ≤ r` then `r ≤ v`.  The two loop lemmas propagate
these conditions through the move loops, with the running `max_eval` /
`min_eval` folded into the node value.
-/

theorem maxLoop_km (val : Move → Ext) (child : Move → Ext → Ext → Option Ext)
    (β : Ext)
    (hchild : ∀ m a, a < β → ∃ c, child m a β = some c ∧
      (c ≤ a → val m ≤ c) ∧ (a < c → c < β → val m = c) ∧ (β ≤ c → c ≤ val m)) :
    ∀ (ms : List Move) (best α : Ext), best ≤ α → α < β →
      ∃ r, maxLoop child ms best α β = some r ∧
        (r ≤ α → max best (listMax (ms.map val)) ≤ r) ∧
        (α < r → r < β → max best (listMax (ms.map val)) = r) ∧
        (β ≤ r → r ≤ max best (listMax (ms.map val))) := by
  intro ms
  induction ms with
  | nil =>
    intro best α hbα hαβ
    refine ⟨best, rfl, ?_, ?_, ?_⟩ <;>
      rw [List.map_nil, show listMax [] = ⊥ from rfl, max_eq_left bot_le]
    · exact fun _ => le_refl best
    · exact fun _ _ => rfl
    · exact fun _ => le_refl best
  | cons m rest ih =>
    intro best α hbα hαβ
    obtain ⟨c, hc, hc1, hc2, hc3⟩ := hchild m α hαβ
    have hw : max best (listMax ((m :: rest).map val)) =
        max best (max (val m) (listMax (rest.map val))) := by
      rw [List.map_cons, listMax_cons]
    by_cases hcut : β ≤ max α c
    · -- beta cutoff after this child
      have hβc : β ≤ c := by
        rcases le_max_iff.mp hcut with h | h
        · exact absurd h (not_le.mpr hαβ)
        · exact h
      have hcv : c ≤ val m := hc3 hβc
      refine ⟨max best c, ?_, ?_, ?_, ?_⟩
      · show maxLoop child (m :: rest) best α β = some (max best c)
        simp only [maxLoop, hc, if_pos hcut]
      · intro hra
        exact absurd (lt_of_lt_of_le hαβ (le_trans hβc (le_max_right best c)))
          (not_lt.mpr hra)
      · intro _ hrβ
        exact absurd (lt_of_le_of_lt (le_trans hβc (le_max_right best c)) hrβ)
          (lt_irrefl β)
      · intro _
        rw [hw]
        exact max_le_max (le_refl best)
          (le_trans hcv (le_max_left (val m) (listMax (rest.map val))))
    · -- no cutoff: continue with updated best and alpha
      have hα'β : max α c < β := not_le.mp hcut
      have hb'α' : max best c ≤ max α c := max_le_max hbα (le_refl c)
      obtain ⟨r, hr, h1, h2, h3⟩ := ih (max best c) (max α c) hb'α' hα'β
      refine ⟨r, ?_, ?_, ?_, ?_⟩
      · show maxLoop child (m :: rest) best α β = some r
        simp only [maxLoop, hc, if_neg hcut]
        exact hr
      · intro hra
        rw [hw]
        have hW : max (max best c) (listMax (rest.map val)) ≤ r :=
          h1 (le_trans hra (le_max_left α c))
        have hbc : max best c ≤ r := le_trans (le_max_left _ _) hW
        have hcr : c ≤ r := le_trans (le_max_right best c) hbc
        have hvm : val m ≤ c := hc1 (le_trans hcr hra)
        have hbr : best ≤ r := le_trans (le_max_left best c) hbc
        have hRr : listMax (rest.map val) ≤ r := le_trans (le_max_right _ _) hW
        exact max_le hbr (max_le (le_trans hvm hcr) hRr)
      · intro hαr hrβ
        rw [hw]
        by_cases hr' : r ≤ max α c
        · have hW : max (max best c) (listMax (rest.map val)) ≤ r := h1 hr'
          have hcr : c ≤ r :=
            le_trans (le_trans (le_max_right best c) (le_max_left _ _)) hW
          have hrc : r ≤ c := (le_max_iff.mp hr').resolve_left (not_le.mpr hαr)
          have hceq : c = r := le_antisymm hcr hrc
          have hval : val m = c := hc2 (hceq ▸ hαr) (hceq ▸ hrβ)
          have hbr : best ≤ r :=
            le_trans (le_trans (le_max_left best c) (le_max_left _ _)) hW
          have hRr : listMax (rest.map val) ≤ r := le_trans (le_max_right _ _) hW
          refine le_antisymm (max_le hbr (max_le (le_of_eq (hval.trans hceq)) hRr)) ?_
          calc r = c := hceq.symm
            _ = val m := hval.symm
            _ ≤ max (val m) (listMax (rest.map val)) := le_max_left _ _
            _ ≤ max best (max (val m) (listMax (rest.map val))) := le_max_right _ _
        · have hα'r : max α c < r := not_le.mp hr'
          have hW : max (max best c) (listMax (rest.map val)) = r := h2 hα'r hrβ
          by_cases hcα : c ≤ α
          · have hvc : val m ≤ c := hc1 hcα
            refine le_antisymm ?_ ?_
            · have hbr : best ≤ r :=
                hW ▸ le_trans (le_max_left best c) (le_max_left _ _)
              have hRr : listMax (rest.map val) ≤ r := hW ▸ le_max_right _ _
              have hcr : c ≤ r :=
                hW ▸ le_trans (le_max_right best c) (le_max_left _ _)
              exact max_le hbr (max_le (le_trans hvc hcr) hRr)
            · have hrW : r ≤ max (max best c) (listMax (rest.map val)) :=
                le_of_eq hW.symm
              rcases le_max_iff.mp hrW with h | h
              · rcases le_max_iff.mp h with h' | h'
                · exact le_trans h' (le_max_left _ _)
                · have hαltr : α < r := lt_of_le_of_lt (le_max_left α c) hα'r
                  exact absurd (lt_of_lt_of_le hαltr (le_trans h' hcα))
                    (lt_irrefl α)
              · exact le_trans h
                  (le_trans (le_max_right (val m) _) (le_max_right best _))
          · have hαc : α < c := not_le.mp hcα
            have hcr : c < r := max_eq_right (le_of_lt hαc) ▸ hα'r
            have hval : val m = c := hc2 hαc (lt_trans hcr hrβ)
            rw [hval, ← max_assoc]
            exact hW
      · intro hβr
        rw [hw]
        have hrW : r ≤ max (max best c) (listMax (rest.map val)) := h3 hβr
        rcases le_max_iff.mp hrW with h | h
        · rcases le_max_iff.mp h with h' | h'
          · exact le_trans h' (le_max_left _ _)
          · have hcv : c ≤ val m := hc3 (le_trans hβr h')
            exact le_trans (le_trans h' hcv)
              (le_trans (le_max_left (val m) _) (le_max_right best _))
        · exact le_trans h
            (le_trans (le_max_right (val m) _) (le_max_right best _))

theorem minLoop_km (val : Move → Ext) (child : Move → Ext → Ext → Option Ext)
    (α : Ext)
    (hchild : ∀ m b, α < b → ∃ c, child m α b = some c ∧
      (c ≤ α → val m ≤ c) ∧ (α < c → c < b → val m = c) ∧ (b ≤ c → c ≤ val m)) :
    ∀ (ms : List Move) (best β : Ext), β ≤ best → α < β →
      ∃ r, minLoop child ms best α β = some r ∧
        (r ≤ α → min best (listMin (ms.map val)) ≤ r) ∧
        (α < r → r < β → min best (listMin (ms.map val)) = r) ∧
        (β ≤ r → r ≤ min best (listMin (ms.map val))) := by
  intro ms
  induction ms with
  | nil =>
    intro best β hβb hαβ
    refine ⟨best, rfl, ?_, ?_, ?_⟩ <;>
      rw [List.map_nil, show listMin [] = ⊤ from rfl, min_eq_left le_top]
    · exact fun _ => le_refl best
    · exact fun _ _ => rfl
    · exact fun _ => le_refl best
  | cons m rest ih =>
    intro best β hβb hαβ
    obtain ⟨c, hc, hc1, hc2, hc3⟩ := hchild m β hαβ
    have hw : min best (listMin ((m :: rest).map val)) =
        min best (min (val m) (listMin (rest.map val))) := by
      rw [List.map_cons, listMin_cons]
    by_cases hcut : min β c ≤ α
    · -- alpha cutoff after this child
      have hcα : c ≤ α := by
        rcases min_le_iff.mp hcut with h | h
        · exact absurd h (not_le.mpr hαβ)
        · exact h
      have hvc : val m ≤ c := hc1 hcα
      refine ⟨min best c, ?_, ?_, ?_, ?_⟩
      · show minLoop child (m :: rest) best α β = some (min best c)
        simp only [minLoop, hc, if_pos hcut]
      · intro _
        rw [hw]
        exact min_le_min (le_refl best)
          (le_trans (min_le_left (val m) (listMin (rest.map val))) hvc)
      · intro hαr _
        exact absurd (lt_of_lt_of_le hαr (le_trans (min_le_right best c) hcα))
          (lt_irrefl α)
      · intro hβr
        exact absurd
          (lt_of_le_of_lt (le_trans hβr (le_trans (min_le_right best c) hcα)) hαβ)
          (lt_irrefl β)
    · -- no cutoff: continue with updated best and beta
      have hαβ' : α < min β c := not_le.mp hcut
      have hβ'b' : min β c ≤ min best c := min_le_min hβb (le_refl c)
      obtain ⟨r, hr, h1, h2, h3⟩ := ih (min best c) (min β c) hβ'b' hαβ'
      refine ⟨r, ?_, ?_, ?_, ?_⟩
      · show minLoop child (m :: rest) best α β = some r
        simp only [minLoop, hc, if_neg hcut]
        exact hr
      · intro hra
        rw [hw]
        have hW : min (min best c) (listMin (rest.map val)) ≤ r := h1 hra
        rcases min_le_iff.mp hW with h | h
        · rcases min_le_iff.mp h with h' | h'
          · exact le_trans (min_le_left _ _) h'
          · have hvm : val m ≤ c := hc1 (le_trans h' hra)
            exact le_trans
              (le_trans (min_le_right best _) (min_le_left (val m) _))
              (le_trans hvm h')
        · exact le_trans (le_trans (min_le_right best _) (min_le_right (val m) _)) h
      · intro hαr hrβ
        rw [hw]
        by_cases hr' : min β c ≤ r
        · have hrW : r ≤ min (min best c) (listMin (rest.map val)) := h3 hr'
          have hrc : r ≤ c :=
            le_trans hrW (le_trans (min_le_left _ _) (min_le_right best c))
          have hcr : c ≤ r := (min_le_iff.mp hr').resolve_left (not_le.mpr hrβ)
          have hceq : c = r := le_antisymm hcr hrc
          have hval : val m = c := hc2 (hceq ▸ hαr) (hceq ▸ hrβ)
          have hrb : r ≤ best :=
            le_trans hrW (le_trans (min_le_left _ _) (min_le_left best c))
          have hrR : r ≤ listMin (rest.map val) := le_trans hrW (min_le_right _ _)
          refine le_antisymm ?_
            (le_min hrb (le_min (le_of_eq (hceq.symm.trans hval.symm)) hrR))
          calc min best (min (val m) (listMin (rest.map val)))
              ≤ min (val m) (listMin (rest.map val)) := min_le_right _ _
            _ ≤ val m := min_le_left _ _
            _ = c := hval
            _ = r := hceq
        · have hrβ' : r < min β c := not_le.mp hr'
          have hW : min (min best c) (listMin (rest.map val)) = r := h2 hαr hrβ'
          by_cases hcβ : β ≤ c
          · have hcv : c ≤ val m := hc3 hcβ
            refine le_antisymm ?_ ?_
            · have hWr : min (min best c) (listMin (rest.map val)) ≤ r :=
                le_of_eq hW
              rcases min_le_iff.mp hWr with h | h
              · rcases min_le_iff.mp h with h' | h'
                · exact le_trans (min_le_left _ _) h'
                · have hrltc : r < c := (lt_min_iff.mp hrβ').2
                  exact absurd (lt_of_le_of_lt h' hrltc) (lt_irrefl c)
              · exact le_trans
                  (le_trans (min_le_right best _) (min_le_right (val m) _)) h
            · have hrb : r ≤ best :=
                hW ▸ le_trans (min_le_left _ _) (min_le_left best c)
              have hrR : r ≤ listMin (rest.map val) := hW ▸ min_le_right _ _
              have hrc : r ≤ c :=
                hW ▸ le_trans (min_le_left _ _) (min_le_right best c)
              exact le_min hrb (le_min (le_trans hrc hcv) hrR)
          · have hcltβ : c < β := not_le.mp hcβ
            have hαc : α < c := lt_of_lt_of_le hαβ' (min_le_right β c)
            have hval : val m = c := hc2 hαc hcltβ
            rw [hval, ← min_assoc]
            exact hW
      · intro hβr
        rw [hw]
        have hrW : r ≤ min (min best c) (listMin (rest.map val)) :=
          h3 (le_trans (min_le_left β c) hβr)
        have hrb : r ≤ best :=
          le_trans hrW (le_trans (min_le_left _ _) (min_le_left best c))
        have hrc : r ≤ c :=
          le_trans hrW (le_trans (min_le_left _ _) (min_le_right best c))
        have hrR : r ≤ listMin (rest.map val) := le_trans hrW (min_le_right _ _)
        have hcv : c ≤ val m := hc3 (le_trans hβr hrc)
        exact le_min hrb (le_min (le_trans hrc hcv) hrR)

/-- The Knuth-Moore conditions for `minimax` against the unpruned
`fullMinimax` value, for every nonnegative depth `dn`, every window
`α < β`, and any fuel exceeding the depth (which is enough for the
recursion to bottom out). -/
theorem km (G : GameRules Pos Move) : ∀ dn fuel : ℕ, dn < fuel →
    ∀ (p : Pos) (α β : Ext) (maxi : Bool), α < β →
    ∃ r, minimax G fuel p (dn : ℤ) α β maxi = some r ∧
      (r ≤ α → fullMinimax G p dn maxi ≤ r) ∧
      (α < r → r < β → fullMinimax G p dn maxi = r) ∧
      (β ≤ r → r ≤ fullMinimax G p dn maxi) := by
  intro dn
  induction dn with
  | zero =>
    intro fuel hfuel p α β maxi _
    obtain ⟨f, rfl⟩ : ∃ f, fuel = f + 1 := ⟨fuel - 1, by omega⟩
    refine ⟨toExt (G.eval p), ?_, ?_, ?_, ?_⟩
    · show minimax G (f + 1) p ((0 : ℕ) : ℤ) α β maxi = some (toExt (G.eval p))
      simp [minimax]
    · intro _; exact le_refl _
    · intro _ _; rfl
    · intro _; exact le_refl _
  | succ dn ih =>
    intro fuel hfuel p α β maxi hαβ
    obtain ⟨f, rfl⟩ : ∃ f, fuel = f + 1 := ⟨fuel - 1, by omega⟩
    have hdf : dn < f := by omega
    have hd0 : ((dn + 1 : ℕ) : ℤ) ≠ 0 := by exact_mod_cast Nat.succ_ne_zero dn
    have hdm1 : ((dn + 1 : ℕ) : ℤ) - 1 = (dn : ℤ) := by push_cast; ring
    by_cases hover : G.isGameOver p = true
    · have hfull : fullMinimax G p (dn + 1) maxi = toExt (G.eval p) := by
        simp [fullMinimax, hover]
      refine ⟨toExt (G.eval p), ?_, ?_, ?_, ?_⟩
      · show minimax G (f + 1) p ((dn + 1 : ℕ) : ℤ) α β maxi = some (toExt (G.eval p))
        simp [minimax, hover]
      · intro _; rw [hfull]
      · intro _ _; rw [hfull]
      · intro _; rw [hfull]
    · have hcond : ¬(((dn + 1 : ℕ) : ℤ) = 0 ∨ G.isGameOver p = true) := by
        push_neg
        exact ⟨hd0, hover⟩
      cases maxi with
      | true =>
        have hmm : minimax G (f + 1) p ((dn + 1 : ℕ) : ℤ) α β true =
            maxLoop
              (fun m a b =>
                minimax G f (G.play p m) (((dn + 1 : ℕ) : ℤ) - 1) a b false)
              (G.legalMoves p) ⊥ α β := by
          show (if ((dn + 1 : ℕ) : ℤ) = 0 ∨ G.isGameOver p = true
              then some (toExt (G.eval p))
              else if true = true then
                maxLoop (fun m a b =>
                  minimax G f (G.play p m) (((dn + 1 : ℕ) : ℤ) - 1) a b false)
                  (G.legalMoves p) ⊥ α β
              else minLoop (fun m a b =>
                  minimax G f (G.play p m) (((dn + 1 : ℕ) : ℤ) - 1) a b true)
                  (G.legalMoves p) ⊤ α β) = _
          rw [if_neg hcond]
          rfl
        have hfull : fullMinimax G p (dn + 1) true =
            listMax ((G.legalMoves p).map fun m =>
              fullMinimax G (G.play p m) dn false) := by
          simp [fullMinimax, hover]
        obtain ⟨r, hr, h1, h2, h3⟩ :=
          maxLoop_km (fun m => fullMinimax G (G.play p m) dn false)
            (fun m a b =>
              minimax G f (G.play p m) (((dn + 1 : ℕ) : ℤ) - 1) a b false)
            β
            (by
              intro m a hab
              show ∃ c,
                minimax G f (G.play p m) (((dn + 1 : ℕ) : ℤ) - 1) a β false =
                  some c ∧ _
              rw [hdm1]
              exact ih f hdf (G.play p m) a β false hab)
            (G.legalMoves p) ⊥ α bot_le hαβ
        rw [max_eq_right bot_le] at h1 h2 h3

        exact ⟨r, by rw [hmm]; exact hr, by rw [hfull]; exact h1,
          by rw [hfull]; exact h2, by rw [hfull]; exact h3⟩
      | false =>
        have hmm : minimax G (f + 1) p ((dn + 1 : ℕ) : ℤ) α β false =
            minLoop
              (fun m a b =>
                minimax G f (G.play p m) (((dn + 1 : ℕ) : ℤ) - 1) a b true)
              (G.legalMoves p) ⊤ α β := by
          show (if ((dn + 1 : ℕ) : ℤ) = 0 ∨ G.isGameOver p = true
              then some (toExt (G.eval p))
              else if false = true then
                maxLoop (fun m a b =>
                  minimax G f (G.play p m) (((dn + 1 : ℕ) : ℤ) - 1) a b false)
                  (G.legalMoves p) ⊥ α β
              else minLoop (fun m a b =>
                  minimax G f (G.play p m) (((dn + 1 : ℕ) : ℤ) - 1) a b true)
                  (G.legalMoves p) ⊤ α β) = _
          rw [if_neg hcond]
          rfl
        have hfull : fullMinimax G p (dn + 1) false =
            listMin ((G.legalMoves p).map fun m =>
              fullMinimax G (G.play p m) dn true) := by
          simp [fullMinimax, hover]
        obtain ⟨r, hr, h1, h2, h3⟩ :=
          minLoop_km (fun m => fullMinimax G (G.play p m) dn true)
            (fun m a b =>
              minimax G f (G.play p m) (((dn + 1 : ℕ) : ℤ) - 1) a b true)
            α
            (by
              intro m b hab
              show ∃ c,
                minimax G f (G.play p m) (((dn + 1 : ℕ) : ℤ) - 1) α b true =
                  some c ∧ _
              rw [hdm1]
              exact ih f hdf (G.play p m) α b true hab)
            (G.legalMoves p) ⊤ β le_top hαβ
        rw [min_eq_right le_top] at h1 h2 h3
        exact ⟨r, by rw [hmm]; exact hr, by rw [hfull]; exact h1,
          by rw [hfull]; exact h2, by rw [hfull]; exact h3⟩

/-- With the full window `(-inf, +inf)` the pruned search computes
exactly the unpruned minimax value. -/
theorem minimax_full_window (G : GameRules Pos Move) (p : Pos) (dn fuel : ℕ)
    (maxi : Bool) (h : dn < fuel) :
    minimax G fuel p (dn : ℤ) ⊥ ⊤ maxi = some (fullMinimax G p dn maxi) := by
  obtain ⟨r, hr, h1, h2, h3⟩ := km G dn fuel h p ⊥ ⊤ maxi bot_lt_top
  rw [hr]
  congr 1
  rcases le_or_lt r ⊥ with hb | hb
  · have hrb : r = ⊥ := le_bot_iff.mp hb
    have hv := h1 hb
    rw [hrb] at hv ⊢
    exact (le_bot_iff.mp hv).symm
  · rcases lt_or_le r ⊤ with ht | ht
    · exact (h2 hb ht).symm
    · have hrt : r = ⊤ := top_le_iff.mp ht
      have hv := h3 ht
      rw [hrt] at hv ⊢
      exact (top_le_iff.mp hv).symm

/-!
Exact characterization of the root scoring loop: starting from
`(bv, L)`, it returns the max (resp. min) of `bv` and all root values,
and the candidate list is either extended by the ties with `bv` (if no
root value improves on `bv`) or reset to exactly the moves achieving
the new best value.
-/

theorem rootLoop_white (G : GameRules Pos Move) (fuel : ℕ) (p : Pos) (depth : ℤ)
    (val : Move → Ext)
    (hval : ∀ m, minimax G fuel (G.play p m) (depth - 1) ⊥ ⊤ false = some (val m)) :
    ∀ (ms : List Move) (bv : Ext) (L : List Move),
      rootLoop G fuel p depth true ms bv L =
        some (List.foldl max bv (ms.map val),
          if List.foldl max bv (ms.map val) = bv
          then L ++ ms.filter (fun m => decide (val m = bv))
          else ms.filter (fun m =>
            decide (val m = List.foldl max bv (ms.map val)))) := by
  intro ms
  induction ms with
  | nil =>
    intro bv L
    simp [rootLoop]
  | cons m rest ih =>
    intro bv L
    have hstep : rootLoop G fuel p depth true (m :: rest) bv L =
        (if bv < val m then rootLoop G fuel p depth true rest (val m) [m]
         else if val m = bv then rootLoop G fuel p depth true rest bv (L ++ [m])
         else rootLoop G fuel p depth true rest bv L) := by
      simp only [rootLoop, Bool.not_true, hval m, if_true, eq_self_iff_true]
    rw [hstep]
    have hFcons : List.foldl max bv ((m :: rest).map val) =
        List.foldl max (max bv (val m)) (rest.map val) := by
      rw [List.map_cons, List.foldl_cons]
    by_cases hlt : bv < val m
    · rw [if_pos hlt, ih (val m) [m]]
      have hmax : max bv (val m) = val m := max_eq_right (le_of_lt hlt)
      have hF : List.foldl max bv ((m :: rest).map val) =
          List.foldl max (val m) (rest.map val) := by rw [hFcons, hmax]
      have hFge : val m ≤ List.foldl max (val m) (rest.map val) := by
        rw [foldl_max_eq]; exact le_max_left _ _
      rw [hF]
      have hFne : List.foldl max (val m) (rest.map val) ≠ bv := fun h =>
        absurd (le_trans hFge (le_of_eq h)) (not_le.mpr hlt)
      rw [if_neg hFne]
      by_cases hFv : List.foldl max (val m) (rest.map val) = val m
      · rw [if_pos hFv, hFv, List.filter_cons, if_pos (by simp)]
        rfl
      · rw [if_neg hFv, List.filter_cons,
          if_neg (by simp; exact fun h => hFv h.symm)]
    · rw [if_neg hlt]
      have hvle : val m ≤ bv := not_lt.mp hlt
      have hmax : max bv (val m) = bv := max_eq_left hvle
      have hF : List.foldl max bv ((m :: rest).map val) =
          List.foldl max bv (rest.map val) := by rw [hFcons, hmax]
      rw [hF]
      by_cases heq : val m = bv
      · rw [if_pos heq, ih bv (L ++ [m])]
        by_cases hFb : List.foldl max bv (rest.map val) = bv
        · rw [if_pos hFb, if_pos hFb, List.filter_cons, if_pos (by simp [heq]),
            List.append_assoc]
          rfl
        · rw [if_neg hFb, if_neg hFb, List.filter_cons,
            if_neg (by simp; intro h; rw [heq] at h; exact hFb h.symm)]
      · rw [if_neg heq, ih bv L]
        by_cases hFb : List.foldl max bv (rest.map val) = bv
        · rw [if_pos hFb, if_pos hFb, List.filter_cons, if_neg (by simp [heq])]
        · rw [if_neg hFb, if_neg hFb, List.filter_cons,
            if_neg (by
              simp
              intro h
              have hge : bv ≤ List.foldl max bv (rest.map val) := by
                rw [foldl_max_eq]; exact le_max_left _ _
              exact heq (le_antisymm hvle (le_of_le_of_eq hge h.symm)))]

theorem rootLoop_black (G : GameRules Pos Move) (fuel : ℕ) (p : Pos) (depth : ℤ)
    (val : Move → Ext)
    (hval : ∀ m, minimax G fuel (G.play p m) (depth - 1) ⊥ ⊤ true = some (val m)) :
    ∀ (ms : List Move) (bv : Ext) (L : List Move),
      rootLoop G fuel p depth false ms bv L =
        some (List.foldl min bv (ms.map val),
          if List.foldl min bv (ms.map val) = bv
          then L ++ ms.filter (fun m => decide (val m = bv))
          else ms.filter (fun m =>
            decide (val m = List.foldl min bv (ms.map val)))) := by
  intro ms
  induction ms with
  | nil =>
    intro bv L
    simp [rootLoop]
  | cons m rest ih =>
    intro bv L
    have hstep : rootLoop G fuel p depth false (m :: rest) bv L =
        (if val m < bv then rootLoop G fuel p depth false rest (val m) [m]
         else if val m = bv then rootLoop G fuel p depth false rest bv (L ++ [m])
         else rootLoop G fuel p depth false rest bv L) := by
      simp only [rootLoop, Bool.not_false, hval m]
      rfl
    rw [hstep]
    have hFcons : List.foldl min bv ((m :: rest).map val) =
        List.foldl min (min bv (val m)) (rest.map val) := by
      rw [List.map_cons, List.foldl_cons]
    by_cases hlt : val m < bv
    · rw [if_pos hlt, ih (val m) [m]]
      have hmin : min bv (val m) = val m := min_eq_right (le_of_lt hlt)
      have hF : List.foldl min bv ((m :: rest).map val) =
          List.foldl min (val m) (rest.map val) := by rw [hFcons, hmin]
      have hFle : List.foldl min (val m) (rest.map val) ≤ val m := by
        rw [foldl_min_eq]; exact min_le_left _ _
      rw [hF]
      have hFne : List.foldl min (val m) (rest.map val) ≠ bv := fun h =>
        absurd ((le_of_eq h.symm).trans hFle) (not_le.mpr hlt)
      rw [if_neg hFne]
      by_cases hFv : List.foldl min (val m) (rest.map val) = val m
      · rw [if_pos hFv, hFv, List.filter_cons, if_pos (by simp)]
        rfl
      · rw [if_neg hFv, List.filter_cons,
          if_neg (by simp; exact fun h => hFv h.symm)]
    · rw [if_neg hlt]
      have hvge : bv ≤ val m := not_lt.mp hlt
      have hmin : min bv (val m) = bv := min_eq_left hvge
      have hF : List.foldl min bv ((m :: rest).map val) =
          List.foldl min bv (rest.map val) := by rw [hFcons, hmin]
      rw [hF]
      by_cases heq : val m = bv
      · rw [if_pos heq, ih bv (L ++ [m])]
        by_cases hFb : List.foldl min bv (rest.map val) = bv
        · rw [if_pos hFb, if_pos hFb, List.filter_cons, if_pos (by simp [heq]),
            List.append_assoc]
          rfl
        · rw [if_neg hFb, if_neg hFb, List.filter_cons,
            if_neg (by simp; intro h; rw [heq] at h; exact hFb h.symm)]
      · rw [if_neg heq, ih bv L]
        by_cases hFb : List.foldl min bv (rest.map val) = bv
        · rw [if_pos hFb, if_pos hFb, List.filter_cons, if_neg (by simp [heq])]
        · rw [if_neg hFb, if_neg hFb, List.filter_cons,
            if_neg (by
              simp
              intro h
              have hle : List.foldl min bv (rest.map val) ≤ bv := by
                rw [foldl_min_eq]; exact min_le_left _ _
              exact heq (le_antisymm ((le_of_eq h).trans hle) hvge))]

theorem rootLoop_white_nil (G : GameRules Pos Move) (fuel : ℕ) (p : Pos)
    (depth : ℤ) (val : Move → Ext)
    (hval : ∀ m, minimax G fuel (G.play p m) (depth - 1) ⊥ ⊤ false = some (val m))
    (ms : List Move) :
    rootLoop G fuel p depth true ms ⊥ [] =
      some (List.foldl max ⊥ (ms.map val),
        ms.filter (fun m => decide (val m = List.foldl max ⊥ (ms.map val)))) := by
  rw [rootLoop_white G fuel p depth val hval ms ⊥ []]
  by_cases hF : List.foldl max ⊥ (ms.map val) = ⊥
  · rw [if_pos hF, List.nil_append, hF]
  · rw [if_neg hF]

theorem rootLoop_black_nil (G : GameRules Pos Move) (fuel : ℕ) (p : Pos)
    (depth : ℤ) (val : Move → Ext)
    (hval : ∀ m, minimax G fuel (G.play p m) (depth - 1) ⊥ ⊤ true = some (val m))
    (ms : List Move) :
    rootLoop G fuel p depth false ms ⊤ [] =
      some (List.foldl min ⊤ (ms.map val),
        ms.filter (fun m => decide (val m = List.foldl min ⊤ (ms.map val)))) := by
  rw [rootLoop_black G fuel p depth val hval ms ⊤ []]
  by_cases hF : List.foldl min ⊤ (ms.map val) = ⊤
  · rw [if_pos hF, List.nil_append, hF]
  · rw [if_neg hF]

/-- On a non-terminal position with depth at least 1, `get_best_move`
returns exactly the legal moves whose child value (the unpruned
minimax value one ply shallower, for the side not to move) equals the
full minimax value of the position for the side to move — i.e. all
moves tying for the best root value, and only those. -/
theorem get_best_move_char (G : GameRules Pos Move) (fuel : ℕ) (p : Pos)
    (k : ℕ) (hover : G.isGameOver p = false) (hfuel : k + 1 ≤ fuel) :
    get_best_move G fuel p ((k + 1 : ℕ) : ℤ) =
      some ((G.legalMoves p).filter (fun m =>
        decide (fullMinimax G (G.play p m) k (!G.turnWhite p) =
          fullMinimax G p (k + 1) (G.turnWhite p)))) := by
  have hover' : ¬(G.isGameOver p = true) := by
    rw [hover]; exact Bool.false_ne_true
  have hdm1 : ((k + 1 : ℕ) : ℤ) - 1 = (k : ℤ) := by push_cast; ring
  have hk : k < fuel := by omega
  cases hw : G.turnWhite p with
  | true =>
    simp only [Bool.not_true]
    have hval : ∀ m, minimax G fuel (G.play p m) (((k + 1 : ℕ) : ℤ) - 1) ⊥ ⊤
        false = some (fullMinimax G (G.play p m) k false) := fun m => by
      rw [hdm1]; exact minimax_full_window G (G.play p m) k fuel false hk
    have hB : fullMinimax G p (k + 1) true =
        List.foldl max ⊥ ((G.legalMoves p).map fun m =>
          fullMinimax G (G.play p m) k false) := by
      simp [fullMinimax, hover, listMax]
    have h1 : get_best_move G fuel p ((k + 1 : ℕ) : ℤ) =
        match rootLoop G fuel p ((k + 1 : ℕ) : ℤ) true (G.legalMoves p) ⊥ [] with
        | none => none
        | some (_, bestMoves) => some bestMoves := by
      unfold get_best_move
      rw [if_neg hover', hw]
      rfl
    rw [h1, rootLoop_white_nil G fuel p _ _ hval (G.legalMoves p), hB]
  | false =>
    simp only [Bool.not_false]
    have hval : ∀ m, minimax G fuel (G.play p m) (((k + 1 : ℕ) : ℤ) - 1) ⊥ ⊤
        true = some (fullMinimax G (G.play p m) k true) := fun m => by
      rw [hdm1]; exact minimax_full_window G (G.play p m) k fuel true hk
    have hB : fullMinimax G p (k + 1) false =
        List.foldl min ⊤ ((G.legalMoves p).map fun m =>
          fullMinimax G (G.play p m) k true) := by
      simp [fullMinimax, hover, listMin]
    have h1 : get_best_move G fuel p ((k + 1 : ℕ) : ℤ) =
        match rootLoop G fuel p ((k + 1 : ℕ) : ℤ) false (G.legalMoves p) ⊤ [] with
        | none => none
        | some (_, bestMoves) => some bestMoves := by
      unfold get_best_move
      rw [if_neg hover', hw]
      rfl
    rw [h1, rootLoop_black_nil G fuel p _ _ hval (G.legalMoves p), hB]

/-- The best root value is attained by some legal move. -/
theorem best_attained (G : GameRules Pos Move) (p : Pos) (k : ℕ)
    (hover : G.isGameOver p = false) (hmoves : G.legalMoves p ≠ []) :
    ∃ m ∈ G.legalMoves p,
      fullMinimax G (G.play p m) k (!G.turnWhite p) =
        fullMinimax G p (k + 1) (G.turnWhite p) := by
  cases hw : G.turnWhite p with
  | true =>
    simp only [Bool.not_true]
    have hB : fullMinimax G p (k + 1) true =
        listMax ((G.legalMoves p).map fun m =>
          fullMinimax G (G.play p m) k false) := by
      simp [fullMinimax, hover]
    have hmem := listMax_mem ((G.legalMoves p).map fun m =>
        fullMinimax G (G.play p m) k false) (by simpa using hmoves)
    rw [← hB] at hmem
    obtain ⟨m, hm, hval⟩ := List.mem_map.mp hmem
    exact ⟨m, hm, hval⟩
  | false =>
    simp only [Bool.not_false]
    have hB : fullMinimax G p (k + 1) false =
        listMin ((G.legalMoves p).map fun m =>
          fullMinimax G (G.play p m) k true) := by
      simp [fullMinimax, hover]
    have hmem := listMin_mem ((G.legalMoves p).map fun m =>
        fullMinimax G (G.play p m) k true) (by simpa using hmoves)
    rw [← hB] at hmem
    obtain ⟨m, hm, hval⟩ := List.mem_map.mp hmem
    exact ⟨m, hm, hval⟩

/-!
Correspondence between the state-passing search and the pure one:
the state-passing functions return the same value together with the
unchanged initial board state — every push is matched by a pop on
every control path, including the pruned-early ones.
-/

theorem posOf_push (G : GameRules Pos Move) (s : SearchState Pos Move) (m : Move) :
    posOf G (push s m) = G.play (posOf G s) m := by
  simp [posOf, push, List.foldl_append]

theorem pop_push (s : SearchState Pos Move) (m : Move) : pop (push s m) = s := by
  simp [pop, push, List.dropLast_concat]

theorem maxLoop_st_eq (G : GameRules Pos Move)
    (childSt : SearchState Pos Move → Ext → Ext → Option (Ext × SearchState Pos Move))
    (childP : Pos → Ext → Ext → Option Ext)
    (hchild : ∀ t a b, childSt t a b = (childP (posOf G t) a b).map (fun v => (v, t))) :
    ∀ (ms : List Move) (s : SearchState Pos Move) (best α β : Ext),
      maxLoop_st childSt s ms best α β =
        (maxLoop (fun m a b => childP (G.play (posOf G s) m) a b) ms best α β).map
          (fun v => (v, s)) := by
  intro ms
  induction ms with
  | nil => intro s best α β; rfl
  | cons m rest ih =>
    intro s best α β
    have hc : childSt (push s m) α β =
        (childP (G.play (posOf G s) m) α β).map (fun v => (v, push s m)) := by
      rw [hchild, posOf_push]
    cases hcp : childP (G.play (posOf G s) m) α β with
    | none =>
      rw [hcp] at hc
      simp only [maxLoop_st, maxLoop, hc, hcp]
      rfl
    | some v =>
      rw [hcp] at hc
      simp only [maxLoop_st, maxLoop, hc, hcp, Option.map_some']
      by_cases hcut : β ≤ max α v
      · rw [if_pos hcut, if_pos hcut, pop_push]
        rfl
      · rw [if_neg hcut, if_neg hcut, pop_push]
        exact ih s (max best v) (max α v) β

theorem minLoop_st_eq (G : GameRules Pos Move)
    (childSt : SearchState Pos Move → Ext → Ext → Option (Ext × SearchState Pos Move))
    (childP : Pos → Ext → Ext → Option Ext)
    (hchild : ∀ t a b, childSt t a b = (childP (posOf G t) a b).map (fun v => (v, t))) :
    ∀ (ms : List Move) (s : SearchState Pos Move) (best α β : Ext),
      minLoop_st childSt s ms best α β =
        (minLoop (fun m a b => childP (G.play (posOf G s) m) a b) ms best α β).map
          (fun v => (v, s)) := by
  intro ms
  induction ms with
  | nil => intro s best α β; rfl
  | cons m rest ih =>
    intro s best α β
    have hc : childSt (push s m) α β =
        (childP (G.play (posOf G s) m) α β).map (fun v => (v, push s m)) := by
      rw [hchild, posOf_push]
    cases hcp : childP (G.play (posOf G s) m) α β with
    | none =>
      rw [hcp] at hc
      simp only [minLoop_st, minLoop, hc, hcp]
      rfl
    | some v =>
      rw [hcp] at hc
      simp only [minLoop_st, minLoop, hc, hcp, Option.map_some']
      by_cases hcut : min β v ≤ α
      · rw [if_pos hcut, if_pos hcut, pop_push]
        rfl
      · rw [if_neg hcut, if_neg hcut, pop_push]
        exact ih s (min best v) α (min β v)

theorem minimax_st_eq (G : GameRules Pos Move) :
    ∀ (fuel : ℕ) (s : SearchState Pos Move) (d : ℤ) (α β : Ext) (maxi : Bool),
      minimax_st G fuel s d α β maxi =
        (minimax G fuel (posOf G s) d α β maxi).map (fun v => (v, s)) := by
  intro fuel
  induction fuel with
  | zero => intro s d α β maxi; rfl
  | succ f ih =>
    intro s d α β maxi
    by_cases hbase : d = 0 ∨ G.isGameOver (posOf G s) = true
    · simp only [minimax_st, minimax, if_pos hbase]
      rfl
    · cases maxi with
      | true =>
        simp only [minimax_st, minimax, if_neg hbase]
        rw [maxLoop_st_eq G _ (fun q a b => minimax G f q (d - 1) a b false)
          (fun t a b => ih t (d - 1) a b false)]
        rfl
      | false =>
        simp only [minimax_st, minimax, if_neg hbase]
        rw [minLoop_st_eq G _ (fun q a b => minimax G f q (d - 1) a b true)
          (fun t a b => ih t (d - 1) a b true)]
        rfl

theorem rootLoop_st_eq (G : GameRules Pos Move) (fuel : ℕ) (depth : ℤ)
    (isWhite : Bool) :
    ∀ (ms : List Move) (s : SearchState Pos Move) (bv : Ext) (L : List Move),
      rootLoop_st G fuel depth isWhite s ms bv L =
        (rootLoop G fuel (posOf G s) depth isWhite ms bv L).map
          (fun q => (q.1, q.2, s)) := by
  intro ms
  induction ms with
  | nil => intro s bv L; rfl
  | cons m rest ih =>
    intro s bv L
    have hc : minimax_st G fuel (push s m) (depth - 1) ⊥ ⊤ (!isWhite) =
        (minimax G fuel (G.play (posOf G s) m) (depth - 1) ⊥ ⊤ (!isWhite)).map
          (fun v => (v, push s m)) := by
      rw [minimax_st_eq, posOf_push]
    cases hcp : minimax G fuel (G.play (posOf G s) m) (depth - 1) ⊥ ⊤ (!isWhite) with
    | none =>
      rw [hcp] at hc
      simp only [rootLoop_st, rootLoop, hc, hcp]
      rfl
    | some v =>
      rw [hcp] at hc
      simp only [rootLoop_st, rootLoop, hc, hcp, Option.map_some']
      cases isWhite with
      | true =>
        by_cases h1 : bv < v
        · simp only [if_pos h1, if_true, pop_push]
          exact ih s v [m]
        · simp only [if_neg h1, if_true]
          by_cases h2 : v = bv
          · simp only [if_pos h2, pop_push]
            exact ih s bv (L ++ [m])
          · simp only [if_neg h2, pop_push]
            exact ih s bv L
      | false =>
        by_cases h1 : v < bv
        · simp only [if_pos h1, pop_push]
          exact ih s v [m]
        · simp only [if_neg h1]
          by_cases h2 : v = bv
          · simp only [if_pos h2, pop_push]
            exact ih s bv (L ++ [m])
          · simp only [if_neg h2, pop_push]
            exact ih s bv L

theorem get_best_move_st_eq (G : GameRules Pos Move) (fuel : ℕ)
    (s : SearchState Pos Move) (depth : ℤ) :
    get_best_move_st G fuel s depth =
      (get_best_move G fuel (posOf G s) depth).map (fun L => (L, s)) := by
  unfold get_best_move_st get_best_move
  by_cases hover : G.isGameOver (posOf G s) = true
  · rw [if_pos hover, if_pos hover]
    rfl
  · rw [if_neg hover, if_neg hover, rootLoop_st_eq]
    cases rootLoop G fuel (posOf G s) depth (G.turnWhite (posOf G s))
        (G.legalMoves (posOf G s))
        (if G.turnWhite (posOf G s) then ⊥ else ⊤) [] with
    | none => rfl
    | some q => rfl

/-!
Evaluator refinement: the accumulator loop of `evaluate_board` equals
the signed sum the spec describes.
-/

theorem foldl_eq_add_sum {α : Type} (g : ℤ → α → ℤ) (f : α → ℤ)
    (hg : ∀ acc x, g acc x = acc + f x) : ∀ (xs : List α) (a : ℤ),
    xs.foldl g a = a + (xs.map f).sum := by
  intro xs
  induction xs with
  | nil => intro a; simp
  | cons x xs ih =>
    intro a
    rw [List.foldl_cons, hg, ih, List.map_cons, List.sum_cons]
    ring

/-!
Captured-piece accounting: the fold over the six piece types unfolds
to five replicate blocks (kings skipped), giving exact counts.
-/

theorem get_captured_pieces_eq (b : Board) (color : Bool) :
    get_captured_pieces b color =
      (((List.replicate (8 - current_count b color .pawn) PieceType.pawn ++
         List.replicate (2 - current_count b color .knight) PieceType.knight) ++
         List.replicate (2 - current_count b color .bishop) PieceType.bishop) ++
         List.replicate (2 - current_count b color .rook) PieceType.rook) ++
         List.replicate (1 - current_count b color .queen) PieceType.queen := rfl

theorem count_captured (b : Board) (color : Bool) :
    ∀ pt : PieceType, pt ≠ .king →
      List.count pt (get_captured_pieces b color) =
        starting_counts pt - current_count b color pt := by
  intro pt hpt
  rw [get_captured_pieces_eq]
  cases pt with
  | pawn => simp [List.count_append, List.count_replicate, starting_counts]
  | knight => simp [List.count_append, List.count_replicate, starting_counts]
  | bishop => simp [List.count_append, List.count_replicate, starting_counts]
  | rook => simp [List.count_append, List.count_replicate, starting_counts]
  | queen => simp [List.count_append, List.count_replicate, starting_counts]
  | king => exact absurd rfl hpt

theorem king_not_captured (b : Board) (color : Bool) :
    PieceType.king ∉ get_captured_pieces b color := by
  rw [get_captured_pieces_eq]
  simp [List.mem_append, List.mem_replicate]

/-!
Claim theorems.
-/

/-- C2: for every position, `evaluate_board` returns the mate score
(-20000 with White to move, +20000 with Black to move) at checkmate, 0
at stalemate or insufficient material, and otherwise the sum over
occupied squares of material value plus piece-square value — added for
White pieces and subtracted for Black, the table indexed at the
rank-mirrored square for White and directly for Black — plus twice the
number of legal moves of the side to move, added for White and
subtracted for Black; this is proved by showing the code equal to a
direct transcription of the spec's formula. -/
theorem evaluate_board_eq_spec : ∀ b : Board,
    evaluate_board b = evaluate_board_spec b := by
  intro b
  have hstep : ∀ (acc : ℤ) (sq : ℕ),
      (match b.piece_at sq with
       | none => acc
       | some piece =>
         if piece.color = true then
           acc + (PIECE_VALUES piece.piece_type +
             get_piece_square_value piece.piece_type sq piece.color)
         else
           acc - (PIECE_VALUES piece.piece_type +
             get_piece_square_value piece.piece_type sq piece.color)) =
      acc + (match b.piece_at sq with
       | none => 0
       | some piece =>
         if piece.color = true then
           PIECE_VALUES piece.piece_type +
             (PIECE_TABLES piece.piece_type).getD
               (if piece.color = true then (7 - sq / 8) * 8 + sq % 8 else sq) 0
         else
           -(PIECE_VALUES piece.piece_type +
             (PIECE_TABLES piece.piece_type).getD
               (if piece.color = true then (7 - sq / 8) * 8 + sq % 8 else sq) 0)) := by
    intro acc sq
    cases hp : b.piece_at sq with
    | none => simp
    | some piece =>
      cases hcol : piece.color with
      | true => simp [hcol, get_piece_square_value, square_rank, square_file]
      | false =>
        simp [hcol, get_piece_square_value, square_rank, square_file,
          sub_eq_add_neg]
  simp only [evaluate_board, evaluate_board_spec]
  by_cases h1 : b.is_checkmate = true
  · rw [if_pos h1, if_pos h1]
  · rw [if_neg h1, if_neg h1]
    by_cases h2 : (b.is_stalemate || b.is_insufficient_material) = true
    · rw [if_pos h2, if_pos h2]
    · rw [if_neg h2, if_neg h2]
      rw [foldl_eq_add_sum
        (fun acc sq =>
          match b.piece_at sq with
          | none => acc
          | some piece =>
            if piece.color = true then
              acc + (PIECE_VALUES piece.piece_type +
                get_piece_square_value piece.piece_type sq piece.color)
            else
              acc - (PIECE_VALUES piece.piece_type +
                get_piece_square_value piece.piece_type sq piece.color))
        (fun sq =>
          match b.piece_at sq with
          | none => 0
          | some piece =>
            if piece.color = true then
              PIECE_VALUES piece.piece_type +
                (PIECE_TABLES piece.piece_type).getD
                  (if piece.color = true then (7 - sq / 8) * 8 + sq % 8 else sq) 0
            else
              -(PIECE_VALUES piece.piece_type +
                (PIECE_TABLES piece.piece_type).getD
                  (if piece.color = true then (7 - sq / 8) * 8 + sq % 8 else sq) 0))
        hstep (List.range 64) 0]
      by_cases h3 : b.turn = true
      · rw [if_pos h3, if_pos h3]; ring
      · rw [if_neg h3, if_neg h3]; ring

/-- On the self-loop game with no terminal positions, `minimax` at any
negative depth never returns, whatever the fuel: the `depth == 0`
guard is never reached again once the depth has gone negative. -/
theorem minimax_neg_depth_no_exit : ∀ (fuel : ℕ) (d : ℤ), d < 0 →
    ∀ (α β : Ext) (maxi : Bool), minimax LoopG fuel 0 d α β maxi = none := by
  intro fuel
  induction fuel with
  | zero => intro d _ α β maxi; rfl
  | succ f ih =>
    intro d hd α β maxi
    have hcond : ¬(d = 0 ∨ LoopG.isGameOver 0 = true) := by
      push_neg
      exact ⟨by omega, by decide⟩
    cases maxi with
    | true =>
      have hchild : minimax LoopG f (LoopG.play 0 ()) (d - 1) α β false = none :=
        ih (d - 1) (by omega) α β false
      have hloop : maxLoop
          (fun m a b => minimax LoopG f (LoopG.play 0 m) (d - 1) a b false)
          [()] ⊥ α β = none := by
        simp only [maxLoop, hchild]
      show minimax LoopG (f + 1) 0 d α β true = none
      simp only [minimax, if_neg hcond]
      exact hloop
    | false =>
      have hchild : minimax LoopG f (LoopG.play 0 ()) (d - 1) α β true = none :=
        ih (d - 1) (by omega) α β true
      have hloop : minLoop
          (fun m a b => minimax LoopG f (LoopG.play 0 m) (d - 1) a b true)
          [()] ⊤ α β = none := by
        simp only [minLoop, hchild]
      show minimax LoopG (f + 1) 0 d α β false = none
      simp only [minimax, if_neg hcond]
      exact hloop

/-- C1: for every game over the oracle interface, every position,
every depth d >= 0 and any fuel exceeding the depth, the alpha-beta
pruned minimax called with the full window (alpha = -inf, beta = +inf)
returns exactly the value of the unpruned full minimax over the same
game tree to the same depth: pruning never changes the returned
value. -/
theorem alphabeta_full_window_eq_fullMinimax (G : GameRules Pos Move) (p : Pos)
    (dn fuel : ℕ) (maxi : Bool) (h : dn < fuel) :
    minimax G fuel p (dn : ℤ) ⊥ ⊤ maxi = some (fullMinimax G p dn maxi) :=
  minimax_full_window G p dn fuel maxi h

/-- Witness for C1: on the concrete game `Gc` at depth 2 the pruned
search returns the unpruned minimax value. -/
theorem alphabeta_full_window_eq_fullMinimax_witness :
    2 < 3 ∧
    minimax Gc 3 0 ((2 : ℕ) : ℤ) ⊥ ⊤ true = some (fullMinimax Gc 0 2 true) :=
  ⟨by decide, alphabeta_full_window_eq_fullMinimax Gc 0 2 3 true (by decide)⟩

/-- C3: on a non-terminal position with at least one legal move and
depth >= 1 (with enough fuel), `get_best_move` returns a nonempty
candidate list consisting of exactly those legal moves whose root
value — obtained by applying the move and calling
`minimax(child, depth-1, -inf, +inf, not is_maximizer)`, where
`is_maximizer` holds exactly when White is to move — equals the best
(max for White, min for Black) root value over all legal moves, which
is the full minimax value of the position for the side to move; a move
with a strictly inferior root value is never in the list, so no
outcome of the random tie-break can return one. -/
theorem get_best_move_returns_best (G : GameRules Pos Move) (p : Pos)
    (dn fuel : ℕ) (hover : G.isGameOver p = false)
    (hmoves : G.legalMoves p ≠ []) (hdn : 1 ≤ dn) (hfuel : dn < fuel) :
    get_best_move G fuel p (dn : ℤ) =
      some ((G.legalMoves p).filter (fun m =>
        decide (minimax G fuel (G.play p m) ((dn : ℤ) - 1) ⊥ ⊤ (!G.turnWhite p) =
          some (fullMinimax G p dn (G.turnWhite p))))) ∧
    (G.legalMoves p).filter (fun m =>
        decide (minimax G fuel (G.play p m) ((dn : ℤ) - 1) ⊥ ⊤ (!G.turnWhite p) =
          some (fullMinimax G p dn (G.turnWhite p)))) ≠ [] := by
  obtain ⟨k, rfl⟩ : ∃ k, dn = k + 1 := ⟨dn - 1, by omega⟩
  have hdm1 : ((k + 1 : ℕ) : ℤ) - 1 = (k : ℤ) := by push_cast; ring
  have hk : k < fuel := by omega
  have hval : ∀ m, minimax G fuel (G.play p m) (((k + 1 : ℕ) : ℤ) - 1) ⊥ ⊤
      (!G.turnWhite p) = some (fullMinimax G (G.play p m) k (!G.turnWhite p)) :=
    fun m => by rw [hdm1]; exact minimax_full_window G (G.play p m) k fuel _ hk
  have hcongr : (G.legalMoves p).filter (fun m =>
      decide (minimax G fuel (G.play p m) (((k + 1 : ℕ) : ℤ) - 1) ⊥ ⊤
          (!G.turnWhite p) =
        some (fullMinimax G p (k + 1) (G.turnWhite p)))) =
      (G.legalMoves p).filter (fun m =>
        decide (fullMinimax G (G.play p m) k (!G.turnWhite p) =
          fullMinimax G p (k + 1) (G.turnWhite p))) := by
    apply List.filter_congr
    intro m _
    rw [hval m]
    exact decide_eq_decide.mpr (by simp)
  rw [hcongr]
  refine ⟨get_best_move_char G fuel p k hover (by omega), ?_⟩
  obtain ⟨m, hm, hvm⟩ := best_attained G p k hover hmoves
  intro hnil
  have hmem : m ∈ (G.legalMoves p).filter (fun m =>
      decide (fullMinimax G (G.play p m) k (!G.turnWhite p) =
        fullMinimax G p (k + 1) (G.turnWhite p))) :=
    List.mem_filter.mpr ⟨hm, by simp [hvm]⟩
  rw [hnil] at hmem
  exact absurd hmem (List.not_mem_nil m)

/-- Witness for C3: at depth 1 on `Gc`, both root moves tie for best
and the candidate list is exactly the legal-move list. -/
theorem get_best_move_returns_best_witness :
    Gc.isGameOver 0 = false ∧ Gc.legalMoves 0 ≠ [] ∧
    (get_best_move Gc 3 0 ((1 : ℕ) : ℤ) =
      some ((Gc.legalMoves 0).filter (fun m =>
        decide (minimax Gc 3 (Gc.play 0 m) (((1 : ℕ) : ℤ) - 1) ⊥ ⊤
            (!Gc.turnWhite 0) =
          some (fullMinimax Gc 0 1 (Gc.turnWhite 0))))) ∧
      (Gc.legalMoves 0).filter (fun m =>
        decide (minimax Gc 3 (Gc.play 0 m) (((1 : ℕ) : ℤ) - 1) ⊥ ⊤
            (!Gc.turnWhite 0) =
          some (fullMinimax Gc 0 1 (Gc.turnWhite 0)))) ≠ []) :=
  ⟨by decide, by decide,
    get_best_move_returns_best Gc 0 1 3 (by decide) (by decide) (by decide)
      (by decide)⟩

/-- C4 (code bug): with depth 0, `get_best_move` does not degenerate
to leaf evaluation at the root's children: the recursive call receives
depth -1, the `depth == 0` guard never fires again, and the search
runs to the end of the game.  On the game `T` (0 -> 1 -> 2, 2
terminal, eval 1 = 5, eval 2 = 7) the root child 1 is scored 7 — the
value of the terminal position two plies deep — instead of its own
leaf evaluation 5. -/
theorem depth_zero_searches_to_game_end :
    get_best_move T 10 0 0 = some [()] ∧
    minimax T 10 1 ((0 : ℤ) - 1) ⊥ ⊤ false = some (toExt 7) ∧
    T.eval 1 = 5 ∧
    minimax T 10 1 ((0 : ℤ) - 1) ⊥ ⊤ false ≠ some (toExt (T.eval 1)) := by
  decide

/-- C5 (counterexample): the standard starting position does not
evaluate to 0. -/
theorem evaluate_start_ne_zero : evaluate_board startBoard ≠ 0 := by decide

/-- C5 (amended): the standard starting position evaluates to 40:
material and piece-square contributions cancel by mirror symmetry, and
the mobility bonus — counted only for the side to move — contributes
2 * 20 for White's twenty legal opening moves. -/
theorem evaluate_start_eq_forty : evaluate_board startBoard = 40 := by decide

/-- C6: `minimax` restores the board to its exact pre-call state
before returning, on every control path including the beta/alpha
cutoff early exits: whenever the state-passing search returns, the
returned board state equals the initial one. -/
theorem minimax_restores_state (G : GameRules Pos Move) (fuel : ℕ)
    (s : SearchState Pos Move) (d : ℤ) (α β : Ext) (maxi : Bool)
    (vs : Ext × SearchState Pos Move)
    (h : minimax_st G fuel s d α β maxi = some vs) : vs.2 = s := by
  rw [minimax_st_eq] at h
  cases hm : minimax G fuel (posOf G s) d α β maxi with
  | none => rw [hm] at h; exact absurd h (by simp)
  | some v =>
    rw [hm, Option.map_some'] at h
    have hvs : (v, s) = vs := Option.some.inj h
    rw [← hvs]

/-- Witness for C6 on the concrete game `Gc`. -/
theorem minimax_restores_state_witness :
    minimax_st Gc 3 ⟨0, []⟩ 1 ⊥ ⊤ true =
      some (toExt 0, (⟨0, []⟩ : SearchState ℕ ℕ)) ∧
    (toExt 0, (⟨0, []⟩ : SearchState ℕ ℕ)).2 = ⟨0, []⟩ :=
  ⟨by decide,
    minimax_restores_state Gc 3 ⟨0, []⟩ 1 ⊥ ⊤ true (toExt 0, ⟨0, []⟩)
      (by decide)⟩

/-- C7: on a terminal position (game over), and likewise whenever the
candidate list comes out empty because there are no legal moves,
`get_best_move` returns the empty candidate list (the Python `None`),
for every depth and fuel: the absence of a legal move is signalled by
the optional result, never by an exception. -/
theorem get_best_move_terminal_none (G : GameRules Pos Move) (fuel : ℕ)
    (p : Pos) (depth : ℤ)
    (h : G.isGameOver p = true ∨ G.legalMoves p = []) :
    get_best_move G fuel p depth = some [] := by
  by_cases hover : G.isGameOver p = true
  · unfold get_best_move
    rw [if_pos hover]
  · rcases h with h | h
    · exact absurd h hover
    · unfold get_best_move
      rw [if_neg hover, h]
      rfl

/-- Witness for C7: the terminal position 3 of `Gc`. -/
theorem get_best_move_terminal_none_witness :
    (Gc.isGameOver 3 = true ∨ Gc.legalMoves 3 = []) ∧
    get_best_move Gc 5 3 2 = some [] :=
  ⟨Or.inl (by decide), get_best_move_terminal_none Gc 5 3 2 (Or.inl (by decide))⟩

/-- C8 (counterexample): on a position with two White queens (one
produced by promotion), the captured-queen count is 0, not the
literal `starting_count - current_count = 1 - 2 = -1` the claim
asserts for every position. -/
theorem captured_promo_count_ne :
    ¬((List.count PieceType.queen (get_captured_pieces promoBoard true) : ℤ) =
      (starting_counts PieceType.queen : ℤ) -
        (current_count promoBoard true PieceType.queen : ℤ)) := by
  decide

/-- C8 (amended): for every position in which no piece type exceeds
its starting count, each non-king piece type appears in the captured
list exactly (starting_count - current_count) times; kings never
appear in either list; the starting position yields empty lists for
both colors; and the starting position minus one White pawn and one
Black knight yields exactly {White: [pawn], Black: [knight]}. -/
theorem captured_pieces_counts (b : Board)
    (h : ∀ (c : Bool) (pt : PieceType),
      current_count b c pt ≤ starting_counts pt) :
    (∀ (c : Bool) (pt : PieceType), pt ≠ .king →
      (List.count pt (get_captured_pieces b c) : ℤ) =
        (starting_counts pt : ℤ) - (current_count b c pt : ℤ)) ∧
    (∀ c : Bool, PieceType.king ∉ get_captured_pieces b c) ∧
    get_captured_pieces startBoard true = [] ∧
    get_captured_pieces startBoard false = [] ∧
    get_captured_pieces examplePos true = [PieceType.pawn] ∧
    get_captured_pieces examplePos false = [PieceType.knight] := by
  refine ⟨?_, fun c => king_not_captured b c, by decide, by decide, by decide,
    by decide⟩
  intro c pt hpt
  rw [count_captured b c pt hpt, Nat.cast_sub (h c pt)]

/-- Witness for C8 (amended) at the starting position. -/
theorem captured_pieces_counts_witness :
    (∀ (c : Bool) (pt : PieceType),
      current_count startBoard c pt ≤ starting_counts pt) ∧
    ((∀ (c : Bool) (pt : PieceType), pt ≠ .king →
      (List.count pt (get_captured_pieces startBoard c) : ℤ) =
        (starting_counts pt : ℤ) - (current_count startBoard c pt : ℤ)) ∧
    (∀ c : Bool, PieceType.king ∉ get_captured_pieces startBoard c) ∧
    get_captured_pieces startBoard true = [] ∧
    get_captured_pieces startBoard false = [] ∧
    get_captured_pieces examplePos true = [PieceType.pawn] ∧
    get_captured_pieces examplePos false = [PieceType.knight]) :=
  ⟨by decide, captured_pieces_counts startBoard (by decide)⟩

/-- C9: for every position, each non-king piece type contributes
exactly max(0, starting_count - current_count) entries to the captured
list: a type whose on-board count exceeds its starting count (extra
queens after promotion) contributes zero entries rather than a
negative count or an error, while a pawn missing because it promoted
is still reported as captured. -/
theorem captured_count_clamped (b : Board) (c : Bool) (pt : PieceType)
    (hpt : pt ≠ .king) :
    (List.count pt (get_captured_pieces b c) : ℤ) =
      max 0 ((starting_counts pt : ℤ) - (current_count b c pt : ℤ)) := by
  rw [count_captured b c pt hpt]
  rcases le_total (current_count b c pt) (starting_counts pt) with h | h
  · rw [Nat.cast_sub h, max_eq_right (sub_nonneg.mpr (by exact_mod_cast h))]
  · rw [Nat.sub_eq_zero_of_le h,
      max_eq_left (sub_nonpos.mpr (by exact_mod_cast h))]
    rfl

/-- Witness for C9: the two-queen promotion position contributes zero
captured queens (clamped from 1 - 2). -/
theorem captured_count_clamped_witness :
    PieceType.queen ≠ PieceType.king ∧
    (List.count PieceType.queen (get_captured_pieces promoBoard true) : ℤ) =
      max 0 ((starting_counts PieceType.queen : ℤ) -
        (current_count promoBoard true PieceType.queen : ℤ)) :=
  ⟨by decide, captured_count_clamped promoBoard true PieceType.queen (by decide)⟩

/-- C10: `get_best_move` restores the board to its exact pre-call
state before returning: every root move pushed during root scoring is
popped, so the caller observes an unchanged board whatever candidate
list is returned. -/
theorem get_best_move_restores_state (G : GameRules Pos Move) (fuel : ℕ)
    (s : SearchState Pos Move) (depth : ℤ)
    (r : List Move × SearchState Pos Move)
    (h : get_best_move_st G fuel s depth = some r) : r.2 = s := by
  rw [get_best_move_st_eq] at h
  cases hm : get_best_move G fuel (posOf G s) depth with
  | none => rw [hm] at h; exact absurd h (by simp)
  | some L =>
    rw [hm, Option.map_some'] at h
    have hr : (L, s) = r := Option.some.inj h
    rw [← hr]

/-- Witness for C10 on the concrete game `Gc`. -/
theorem get_best_move_restores_state_witness :
    get_best_move_st Gc 3 ⟨0, []⟩ 1 =
      some ([0, 1], (⟨0, []⟩ : SearchState ℕ ℕ)) ∧
    (([0, 1], (⟨0, []⟩ : SearchState ℕ ℕ))).2 = ⟨0, []⟩ :=
  ⟨by decide,
    get_best_move_restores_state Gc 3 ⟨0, []⟩ 1 ([0, 1], ⟨0, []⟩) (by decide)⟩

end ChessAI
